import Mathlib

/-!
Shallow embedding of `src/fm_modulation_streamlit_app.py`, function
`generate_fm_tone` (lines 96-159), the stimulus-synthesis and WAV-encoding
engine of the FM auditory test app.

Modelling conventions:
* Python ints are `Nat` (all quantities of interest are nonnegative);
  sample values are `ℚ` (exact stand-in for IEEE floats: every claim
  settled here depends only on dataflow/branch structure or on exact
  arithmetic identities that hold in both ℚ and binary floating point,
  as noted at each use).
* Trigonometry is abstracted: every `sin`/`cos` in the source is applied
  to an argument of the form `2π · x`, so the embedding passes two
  abstract functions `S C : ℚ → ℚ` where `S x` stands for `sin (2π x)`
  and `C x` stands for `cos (2π x)`.  Concretely:
  - `np.sin(2*np.pi*freq*t)` at `t = n/sr` is `S (freq * n / sr)`;
  - `np.sin(2*np.pi*fm_hz*t)` is `S (fm_hz * n / sr)`;
  - `phase = 2*np.pi*np.cumsum(inst_freq)/sr` and `np.sin(phase)` is
    `S (cumFreq … n / sr)`;
  - `np.hanning(M)[k] = 0.5 - 0.5*cos(2*np.pi*k/(M-1))` is
    `1/2 - 1/2 * C (k / (M-1))`.
* `int(x)` on a nonnegative float is floor; for `sr, dur_ms : Nat` the
  product `sr*dur_ms ≤ 1.92e8 < 2^53` is float-exact and the quotient
  `sr*dur_ms/1000` is a rational with denominator 1000 whose correctly
  rounded double never crosses an integer boundary, so
  `int(sr*dur_ms/1000) = sr*dur_ms / 1000` in `Nat` division.
* `.astype(np.int16)` is C-style conversion: truncation toward zero,
  then reduction into the int16 range (modelled by `toInt16`).
* The `wave` module emits a canonical 44-byte RIFF/WAVE header
  (2 channels, 16-bit, frame rate `sr`) followed by the little-endian
  interleaved samples; bytes are modelled as `List ℕ`.
-/

/-- Sample count: `n_samples = int(sr * dur_ms / 1000); if n_samples <= 0: n_samples = 1`
(source lines 109-111). `Nat` division is floor, matching `int()` on the
nonnegative float quotient. -/
def nSamples (sr dur_ms : ℕ) : ℕ :=
  let n := sr * dur_ms / 1000
  if n = 0 then 1 else n

/-- Instantaneous frequency (source line 116):
`inst_freq[n] = freq * (1.0 + depth * sin(2π * fm_hz * (n/sr)))`. -/
def instFreq (S : ℚ → ℚ) (sr : ℕ) (freq fm_hz depth : ℚ) (n : ℕ) : ℚ :=
  freq * (1 + depth * S (fm_hz * n / sr))

/-- Running sum of instantaneous frequency, `np.cumsum(inst_freq)[n]`
(source line 118); `cumFreq … 0 = instFreq … 0`, i.e. the first term is
included. -/
def cumFreq (S : ℚ → ℚ) (sr : ℕ) (freq fm_hz depth : ℚ) : ℕ → ℚ
  | 0 => instFreq S sr freq fm_hz depth 0
  | n + 1 => cumFreq S sr freq fm_hz depth n + instFreq S sr freq fm_hz depth (n + 1)

/-- Accumulated phase (source line 118): `phase[n] = 2π * cumsum(inst_freq)[n] / sr`.
The factor `2π` is kept as an explicit parameter `twoPi` (the embedding has
no transcendental constants); the synthesized tone `sin(phase[n])` is
`S (cumFreq … n / sr)` under the convention `S x = sin (2π x)`. -/
def phase (twoPi : ℚ) (S : ℚ → ℚ) (sr : ℕ) (freq fm_hz depth : ℚ) (n : ℕ) : ℚ :=
  twoPi * cumFreq S sr freq fm_hz depth n / sr

/-- Pre-window mono waveform (source lines 114-121): the modulated branch is
taken only when `with_fm and fm_hz > 0 and depth > 0`; otherwise the flat
tone `sin(2π * freq * (n/sr))`. -/
def preWindowTone (S : ℚ → ℚ) (sr : ℕ) (freq fm_hz depth : ℚ) (with_fm : Bool)
    (n_samples : ℕ) : List ℚ :=
  if with_fm = true ∧ 0 < fm_hz ∧ 0 < depth then
    (List.range n_samples).map fun n : ℕ => S (cumFreq S sr freq fm_hz depth n / sr)
  else
    (List.range n_samples).map fun n : ℕ => S (freq * (n : ℚ) / sr)

/-- Hann window of length `n` (source line 125):
`np.hanning(n)[k] = 0.5 - 0.5*cos(2π*k/(n-1))`. -/
def hannWindow (C : ℚ → ℚ) (n : ℕ) : List ℚ :=
  (List.range n).map fun k : ℕ => 1/2 - 1/2 * C ((k : ℚ) / ((n : ℚ) - 1))

/-- Peak absolute value `np.max(np.abs(xs))` (source line 129), with 0 as the
fold base (the pipeline only ever applies it to nonempty buffers). -/
def maxAbs (xs : List ℚ) : ℚ :=
  xs.foldr (fun x m => max |x| m) 0

/-- Normalization (source lines 129-132): divide by the peak, with the
divisor replaced by 1 when the peak is below `1e-9`. -/
def normalizePeak (xs : List ℚ) : List ℚ :=
  let m := maxAbs xs
  let m' := if m < 1/1000000000 then 1 else m
  xs.map fun x => x / m'

/-- Truncation toward zero, the behaviour of C float-to-int conversion used
by `.astype(np.int16)` (source line 135). -/
def truncQ (q : ℚ) : ℤ :=
  if 0 ≤ q then ⌊q⌋ else ⌈q⌉

/-- Reduction of an integer into the int16 range `[-32768, 32767]` by
wraparound, the overflow behaviour of `.astype(np.int16)`. -/
def toInt16 (z : ℤ) : ℤ :=
  (z + 32768) % 65536 - 32768

/-- Quantizer (source line 135): `audio = (tone * 32767).astype(np.int16)`
elementwise — scale, truncate toward zero, wrap into int16. -/
def quantizeSample (s : ℚ) : ℤ :=
  toInt16 (truncQ (s * 32767))

/-- Peak absolute value of the quantized buffer (for stating the quantized
peak-magnitude property). -/
def maxAbsZ (zs : List ℤ) : ℤ :=
  zs.foldr (fun z m => max |z| m) 0

/-- Channel router (source lines 138-146): `"左耳のみ"` puts the tone on the
left and zeros on the right, `"右耳のみ"` the reverse, and every other string
falls through to the `else` branch with the tone on both channels. -/
def routeChannels (ear : String) (audio : List ℤ) : List ℤ × List ℤ :=
  if ear = "左耳のみ" then (audio, List.replicate audio.length 0)
  else if ear = "右耳のみ" then (List.replicate audio.length 0, audio)
  else (audio, audio)

/-- Interleaving `stereo[0::2] = left; stereo[1::2] = right` (source lines
149-151); the two channels always have equal length. -/
def interleave : List ℤ → List ℤ → List ℤ
  | a :: as, b :: bs => a :: b :: interleave as bs
  | _, _ => []

/-- Even-index subsequence of a list (the left channel of an interleaved
stereo buffer). -/
def evens : List ℤ → List ℤ
  | [] => []
  | [a] => [a]
  | a :: _ :: rest => a :: evens rest

/-- Odd-index subsequence of a list (the right channel of an interleaved
stereo buffer). -/
def odds (l : List ℤ) : List ℤ :=
  evens l.tail

/-- Little-endian bytes of a 16-bit unsigned value. -/
def u16LE (n : ℕ) : List ℕ :=
  [n % 256, n / 256 % 256]

/-- Little-endian bytes of a 32-bit unsigned value. -/
def u32LE (n : ℕ) : List ℕ :=
  [n % 256, n / 256 % 256, n / 65536 % 256, n / 16777216 % 256]

/-- Little-endian two's-complement bytes of one int16 sample
(`numpy.int16` `tobytes`). -/
def int16Bytes (z : ℤ) : List ℕ :=
  u16LE (z % 65536).toNat

/-- Byte serialization of the interleaved sample buffer
(`stereo.tobytes()`, source line 158). -/
def encodeSamples : List ℤ → List ℕ
  | [] => []
  | z :: zs => int16Bytes z ++ encodeSamples zs

/-- Canonical 44-byte RIFF/WAVE header written by the `wave` module for
2 channels, 16-bit samples, frame rate `sr` and a data chunk of `dataLen`
bytes (source lines 153-158): "RIFF", riff size `36 + dataLen`, "WAVE",
"fmt " chunk of size 16 (PCM tag 1, 2 channels, rate, byte rate `sr*4`,
block align 4, 16 bits), then "data" and the data length. -/
def wavHeader (sr dataLen : ℕ) : List ℕ :=
  [82, 73, 70, 70] ++ u32LE (36 + dataLen) ++
  [87, 65, 86, 69] ++
  [102, 109, 116, 32] ++ u32LE 16 ++ u16LE 1 ++ u16LE 2 ++
  u32LE sr ++ u32LE (sr * 4) ++ u16LE 4 ++ u16LE 16 ++
  [100, 97, 116, 97] ++ u32LE dataLen

/-- Mono float pipeline: pre-window tone, Hann window when
`n_samples > 3` (source lines 124-126), then peak normalization. -/
def monoFloat (S C : ℚ → ℚ) (sr : ℕ) (freq : ℚ) (dur_ms : ℕ)
    (fm_hz depth : ℚ) (with_fm : Bool) : List ℚ :=
  let n := nSamples sr dur_ms
  let tone := preWindowTone S sr freq fm_hz depth with_fm n
  let windowed := if 3 < n then List.zipWith (· * ·) tone (hannWindow C n) else tone
  normalizePeak windowed

/-- Mono quantized 16-bit buffer (source line 135 applied to the
normalized tone). -/
def monoAudio (S C : ℚ → ℚ) (sr : ℕ) (freq : ℚ) (dur_ms : ℕ)
    (fm_hz depth : ℚ) (with_fm : Bool) : List ℤ :=
  (monoFloat S C sr freq dur_ms fm_hz depth with_fm).map quantizeSample

/-- Interleaved stereo buffer for a given ear routing. -/
def stereoOf (ear : String) (audio : List ℤ) : List ℤ :=
  interleave (routeChannels ear audio).1 (routeChannels ear audio).2

/-- Full synthesis entry point `generate_fm_tone` (source lines 96-159):
returns the WAV container bytes. `S`/`C` abstract `x ↦ sin (2π x)` /
`x ↦ cos (2π x)` as explained in the module docstring. The embedding is a
total function of `sr : ℕ`; it is faithful for `sr ≥ 1`, because for
`framerate ≤ 0` the `wave` module's `setframerate` raises
`wave.Error("bad frame rate")` during container emission, an error path this
embedding does not model. -/
def generate_fm_tone (S C : ℚ → ℚ) (sr : ℕ) (freq : ℚ) (dur_ms : ℕ)
    (fm_hz depth : ℚ) (with_fm : Bool) (ear : String) : List ℕ :=
  let audio := monoAudio S C sr freq dur_ms fm_hz depth with_fm
  let stereo := stereoOf ear audio
  wavHeader sr (2 * stereo.length) ++ encodeSamples stereo

theorem nSamples_eq_max (sr dur_ms : ℕ) :
    nSamples sr dur_ms = max (sr * dur_ms / 1000) 1 := by
  simp only [nSamples]
  split <;> omega

theorem one_le_nSamples (sr dur_ms : ℕ) : 1 ≤ nSamples sr dur_ms := by
  rw [nSamples_eq_max]; omega

theorem preWindowTone_length (S : ℚ → ℚ) (sr : ℕ) (freq fm_hz depth : ℚ)
    (with_fm : Bool) (n : ℕ) :
    (preWindowTone S sr freq fm_hz depth with_fm n).length = n := by
  unfold preWindowTone
  split <;> rw [List.length_map, List.length_range]

theorem hannWindow_length (C : ℚ → ℚ) (n : ℕ) : (hannWindow C n).length = n := by
  unfold hannWindow
  rw [List.length_map, List.length_range]

theorem normalizePeak_length (xs : List ℚ) :
    (normalizePeak xs).length = xs.length := by
  simp [normalizePeak]

theorem monoFloat_length (S C : ℚ → ℚ) (sr : ℕ) (freq : ℚ) (dur_ms : ℕ)
    (fm_hz depth : ℚ) (with_fm : Bool) :
    (monoFloat S C sr freq dur_ms fm_hz depth with_fm).length = nSamples sr dur_ms := by
  unfold monoFloat
  rw [normalizePeak_length]
  split <;> simp [preWindowTone_length, hannWindow_length]

theorem monoAudio_length (S C : ℚ → ℚ) (sr : ℕ) (freq : ℚ) (dur_ms : ℕ)
    (fm_hz depth : ℚ) (with_fm : Bool) :
    (monoAudio S C sr freq dur_ms fm_hz depth with_fm).length = nSamples sr dur_ms := by
  simp [monoAudio, monoFloat_length]

theorem interleave_length (l : List ℤ) :
    ∀ r : List ℤ, r.length = l.length → (interleave l r).length = 2 * l.length := by
  induction l with
  | nil =>
    intro r h
    cases r with
    | nil => simp [interleave]
    | cons b bs => simp at h
  | cons a as ih =>
    intro r h
    cases r with
    | nil => simp at h
    | cons b bs =>
      have hb : bs.length = as.length := by simpa using h
      simp only [interleave, List.length_cons, ih bs hb]
      omega

theorem evens_cons_cons (a b : ℤ) (rest : List ℤ) :
    evens (a :: b :: rest) = a :: evens rest := rfl

theorem odds_cons_cons (a b : ℤ) (rest : List ℤ) :
    odds (a :: b :: rest) = b :: odds rest := by
  cases rest <;> rfl

theorem evens_interleave (l : List ℤ) :
    ∀ r : List ℤ, r.length = l.length → evens (interleave l r) = l := by
  induction l with
  | nil =>
    intro r h
    cases r with
    | nil => rfl
    | cons b bs => simp at h
  | cons a as ih =>
    intro r h
    cases r with
    | nil => simp at h
    | cons b bs =>
      have hb : bs.length = as.length := by simpa using h
      simp only [interleave, evens_cons_cons, ih bs hb]

theorem odds_interleave (l : List ℤ) :
    ∀ r : List ℤ, r.length = l.length → odds (interleave l r) = r := by
  induction l with
  | nil =>
    intro r h
    cases r with
    | nil => rfl
    | cons b bs => simp at h
  | cons a as ih =>
    intro r h
    cases r with
    | nil => simp at h
    | cons b bs =>
      have hb : bs.length = as.length := by simpa using h
      simp only [interleave, odds_cons_cons, ih bs hb]

theorem routeChannels_fst_length (ear : String) (audio : List ℤ) :
    (routeChannels ear audio).1.length = audio.length := by
  unfold routeChannels
  split
  · simp
  · split <;> simp

theorem routeChannels_snd_length (ear : String) (audio : List ℤ) :
    (routeChannels ear audio).2.length = audio.length := by
  unfold routeChannels
  split
  · simp
  · split <;> simp

theorem stereoOf_length (ear : String) (audio : List ℤ) :
    (stereoOf ear audio).length = 2 * audio.length := by
  unfold stereoOf
  rw [interleave_length _ _ (by rw [routeChannels_fst_length, routeChannels_snd_length]),
    routeChannels_fst_length]

theorem int16Bytes_length (z : ℤ) : (int16Bytes z).length = 2 := by
  simp [int16Bytes, u16LE]

theorem encodeSamples_length (zs : List ℤ) :
    (encodeSamples zs).length = 2 * zs.length := by
  induction zs with
  | nil => rfl
  | cons z zs ih =>
    simp only [encodeSamples, List.length_append, int16Bytes_length, ih, List.length_cons]
    omega

theorem wavHeader_length (sr dataLen : ℕ) : (wavHeader sr dataLen).length = 44 := by
  simp [wavHeader, u32LE, u16LE]

theorem generate_fm_tone_length (S C : ℚ → ℚ) (sr : ℕ) (freq : ℚ) (dur_ms : ℕ)
    (fm_hz depth : ℚ) (with_fm : Bool) (ear : String) :
    (generate_fm_tone S C sr freq dur_ms fm_hz depth with_fm ear).length =
      44 + 4 * nSamples sr dur_ms := by
  unfold generate_fm_tone
  simp only [List.length_append, wavHeader_length, encodeSamples_length, stereoOf_length,
    monoAudio_length]
  omega

theorem routeChannels_left (audio : List ℤ) :
    routeChannels "左耳のみ" audio = (audio, List.replicate audio.length 0) := by
  unfold routeChannels
  rw [if_pos rfl]

theorem routeChannels_right (audio : List ℤ) :
    routeChannels "右耳のみ" audio = (List.replicate audio.length 0, audio) := by
  unfold routeChannels
  rw [if_neg (by decide), if_pos rfl]

theorem routeChannels_both (audio : List ℤ) :
    routeChannels "両耳" audio = (audio, audio) := by
  unfold routeChannels
  rw [if_neg (by decide), if_neg (by decide)]

/-- C1: when `modulated` is requested with `modDepth = 0` or `modFreq = 0`, the
branch guard `with_fm and fm_hz > 0 and depth > 0` (source line 114) fails, so
the pre-window mono waveform is exactly the unmodulated one for the same
carrier, duration and sample rate. -/
theorem preWindowTone_fm_degenerate_eq_flat (S : ℚ → ℚ) (sr : ℕ)
    (freq fm_hz depth : ℚ) (n : ℕ) (h : depth = 0 ∨ fm_hz = 0) :
    preWindowTone S sr freq fm_hz depth true n =
      preWindowTone S sr freq fm_hz depth false n := by
  unfold preWindowTone
  have h1 : ¬(true = true ∧ 0 < fm_hz ∧ 0 < depth) := by
    rcases h with h | h <;> simp [h]
  have h2 : ¬(false = true ∧ 0 < fm_hz ∧ 0 < depth) := by simp
  rw [if_neg h1, if_neg h2]

theorem preWindowTone_fm_degenerate_eq_flat_witness :
    ((0 : ℚ) = 0 ∨ (2 : ℚ) = 0) ∧
      preWindowTone (fun _ => 0) 4 5 2 0 true 3 =
        preWindowTone (fun _ => 0) 4 5 2 0 false 3 :=
  ⟨Or.inl rfl, preWindowTone_fm_degenerate_eq_flat (fun _ => 0) 4 5 2 0 3 (Or.inl rfl)⟩

/-- C2: the synthesis entry point is a pure function of its parameters — the
source function reads no session state, clock or randomness (the only random
choice, `random.getrandbits` at line 197, happens in the UI shell and is
passed in as the `with_fm` argument) — so two calls with identical parameters
return byte-identical containers. -/
theorem generate_fm_tone_deterministic (S C : ℚ → ℚ) (sr : ℕ) (freq : ℚ)
    (dur_ms : ℕ) (fm_hz depth : ℚ) (with_fm : Bool) (ear : String) :
    generate_fm_tone S C sr freq dur_ms fm_hz depth with_fm ear =
      generate_fm_tone S C sr freq dur_ms fm_hz depth with_fm ear := rfl

/-- C6: the channel router produces an interleaved `[L0,R0,L1,R1,...]` buffer
of length `2N`; with `"左耳のみ"` the odd (right) samples are all 0 and the even
(left) samples equal the mono buffer; with `"右耳のみ"` the reverse; with
`"両耳"` both channels equal the mono buffer. -/
theorem stereoOf_routing (audio : List ℤ) :
    ((stereoOf "左耳のみ" audio).length = 2 * audio.length ∧
      evens (stereoOf "左耳のみ" audio) = audio ∧
      odds (stereoOf "左耳のみ" audio) = List.replicate audio.length 0) ∧
    ((stereoOf "右耳のみ" audio).length = 2 * audio.length ∧
      evens (stereoOf "右耳のみ" audio) = List.replicate audio.length 0 ∧
      odds (stereoOf "右耳のみ" audio) = audio) ∧
    ((stereoOf "両耳" audio).length = 2 * audio.length ∧
      evens (stereoOf "両耳" audio) = audio ∧
      odds (stereoOf "両耳" audio) = audio) := by
  have hrep : (List.replicate audio.length (0 : ℤ)).length = audio.length := by
    simp
  refine ⟨⟨?_, ?_, ?_⟩, ⟨?_, ?_, ?_⟩, ⟨?_, ?_, ?_⟩⟩ <;>
    simp only [stereoOf, routeChannels_left, routeChannels_right, routeChannels_both]
  · rw [interleave_length _ _ hrep]
  · rw [evens_interleave _ _ hrep]
  · rw [odds_interleave _ _ hrep]
  · rw [interleave_length _ _ hrep.symm, hrep]
  · rw [evens_interleave _ _ hrep.symm]
  · rw [odds_interleave _ _ hrep.symm]
  · rw [interleave_length _ _ rfl]
  · rw [evens_interleave _ _ rfl]
  · rw [odds_interleave _ _ rfl]

/-- C10: any ear string other than `"左耳のみ"` and `"右耳のみ"` — not just
`"両耳"` — falls through to the final `else` (source line 144) and routes the
mono buffer to both channels; no error is raised. -/
theorem routeChannels_fallthrough (ear : String) (audio : List ℤ)
    (hL : ear ≠ "左耳のみ") (hR : ear ≠ "右耳のみ") :
    routeChannels ear audio = (audio, audio) := by
  unfold routeChannels
  rw [if_neg hL, if_neg hR]

theorem routeChannels_fallthrough_witness :
    ("mono" ≠ "左耳のみ") ∧ ("mono" ≠ "右耳のみ") ∧
      routeChannels "mono" [5, -3] = ([5, -3], [5, -3]) :=
  ⟨by decide, by decide,
    routeChannels_fallthrough "mono" [5, -3] (by decide) (by decide)⟩

/-- C8: the accumulated phase satisfies `phase 0 = 2π · f(t₀) / sr` (the first
instantaneous-frequency term is included in the cumulative sum), and for
`carrierFreq > 0` and `0 ≤ modDepth ≤ 1` the phase sequence is monotonically
non-decreasing; `twoPi` stands for the positive constant `2π` and `S` for
`x ↦ sin (2π x)`, which is bounded by 1 in absolute value. -/
theorem phase_first_term_and_monotone (twoPi : ℚ) (S : ℚ → ℚ) (sr : ℕ)
    (freq fm_hz depth : ℚ) (hpi : 0 < twoPi) (hsr : 0 < sr)
    (hS : ∀ x, |S x| ≤ 1) (hf : 0 < freq) (hd0 : 0 ≤ depth) (hd1 : depth ≤ 1) :
    phase twoPi S sr freq fm_hz depth 0 =
        twoPi * instFreq S sr freq fm_hz depth 0 / sr ∧
      ∀ m n : ℕ, m ≤ n →
        phase twoPi S sr freq fm_hz depth m ≤ phase twoPi S sr freq fm_hz depth n := by
  have hsrQ : (0 : ℚ) < (sr : ℚ) := by exact_mod_cast hsr
  have hinst : ∀ k : ℕ, 0 ≤ instFreq S sr freq fm_hz depth k := by
    intro k
    unfold instFreq
    have h1 : -1 ≤ S (fm_hz * k / sr) := (abs_le.mp (hS _)).1
    have h2 : depth * (-1) ≤ depth * S (fm_hz * k / sr) :=
      mul_le_mul_of_nonneg_left h1 hd0
    have h3 : 0 ≤ 1 + depth * S (fm_hz * k / sr) := by nlinarith
    exact mul_nonneg hf.le h3
  refine ⟨rfl, ?_⟩
  have hstep : ∀ k : ℕ,
      phase twoPi S sr freq fm_hz depth k ≤ phase twoPi S sr freq fm_hz depth (k + 1) := by
    intro k
    unfold phase
    have hc : cumFreq S sr freq fm_hz depth k ≤ cumFreq S sr freq fm_hz depth (k + 1) := by
      have := hinst (k + 1)
      show cumFreq S sr freq fm_hz depth k ≤
        cumFreq S sr freq fm_hz depth k + instFreq S sr freq fm_hz depth (k + 1)
      linarith
    have hm := mul_le_mul_of_nonneg_left hc hpi.le
    exact (div_le_div_iff_of_pos_right hsrQ).mpr hm
  intro m n hmn
  exact monotone_nat_of_le_succ hstep hmn

theorem phase_first_term_and_monotone_witness :
    (0 : ℚ) < 6 ∧
      phase 6 (fun _ => 1) 2 3 5 1 0 =
        6 * instFreq (fun _ => 1) 2 3 5 1 0 / ((2 : ℕ) : ℚ) ∧
      phase 6 (fun _ => 1) 2 3 5 1 0 ≤ phase 6 (fun _ => 1) 2 3 5 1 1 := by
  have h := phase_first_term_and_monotone 6 (fun _ => 1) 2 3 5 1 (by norm_num)
    (by norm_num) (fun x => by norm_num) (by norm_num) (by norm_num) (by norm_num)
  exact ⟨by norm_num, h.1, h.2 0 1 (by norm_num)⟩

theorem round_44100_999 : round ((44100 * 999 : ℚ) / 1000) = 44056 := by
  rw [round_eq, show (44100 * 999 : ℚ) / 1000 + 1 / 2 = 440564 / 10 by norm_num,
    Int.floor_eq_iff]
  norm_num

/-- C3 counterexample: at `sampleRate = 44100`, `durationMs = 999` (both in
the §3 ranges) the code truncates `44055.9` to `44055` samples, while the
claimed `round` formula gives `44056`. -/
theorem nSamples_round_cex :
    round ((44100 * 999 : ℚ) / 1000) = 44056 ∧
      (nSamples 44100 999 : ℤ) ≠ max (round ((44100 * 999 : ℚ) / 1000)) 1 := by
  refine ⟨round_44100_999, ?_⟩
  rw [round_44100_999, show nSamples 44100 999 = 44055 from by decide]
  decide

/-- C3 (amended): the number of mono samples synthesized equals
`⌊sampleRate * durationMs / 1000⌋` (truncation toward zero, as computed by
Python `int()`), clamped to a minimum of 1; in particular the buffer is never
empty. -/
theorem monoAudio_count (S C : ℚ → ℚ) (sr : ℕ) (freq : ℚ) (dur_ms : ℕ)
    (fm_hz depth : ℚ) (with_fm : Bool) :
    (monoAudio S C sr freq dur_ms fm_hz depth with_fm).length =
        max (sr * dur_ms / 1000) 1 ∧
      1 ≤ (monoAudio S C sr freq dur_ms fm_hz depth with_fm).length := by
  rw [monoAudio_length, nSamples_eq_max]
  exact ⟨rfl, le_max_right _ _⟩

/-- C7 counterexample: at `sampleRate = 44100`, `durationMs = 999` the
container is `44 + 4·44055` bytes, not `44 + 4·round(44055.9) = 44 + 4·44056`. -/
theorem container_length_round_cex :
    round ((44100 * 999 : ℚ) / 1000) = 44056 ∧
      (generate_fm_tone (fun _ => 0) (fun _ => 0) 44100 500 999 2 (3/10) true
          "両耳").length ≠ 44 + 4 * 44056 := by
  refine ⟨round_44100_999, ?_⟩
  rw [generate_fm_tone_length]
  decide

/-- C7 (amended): for every parameter tuple the returned container's byte
length is `44 + 4*N` with `N = ⌊sampleRate*durationMs/1000⌋` clamped to a
minimum of 1 (44-byte header plus 2 channels × 2 bytes × N frames). -/
theorem generate_fm_tone_byte_length (S C : ℚ → ℚ) (sr : ℕ) (freq : ℚ)
    (dur_ms : ℕ) (fm_hz depth : ℚ) (with_fm : Bool) (ear : String) :
    (generate_fm_tone S C sr freq dur_ms fm_hz depth with_fm ear).length =
      44 + 4 * max (sr * dur_ms / 1000) 1 := by
  rw [generate_fm_tone_length, nSamples_eq_max]

/-- C9 counterexample: with `modDepth = 2`, far outside the §3 range `[0,1]`,
the entry point does not fail — it synthesizes a complete 176444-byte
container, so no `InvalidParameter` check runs before synthesis. -/
theorem no_validation_cex :
    (generate_fm_tone (fun _ => 0) (fun _ => 0) 44100 500 1000 2 2 true
        "両耳").length = 44 + 4 * 44100 := by
  rw [generate_fm_tone_length]
  decide

/-- C9 (amended): the synthesis entry point performs no `InvalidParameter`
validation of its own: out-of-range carrier, duration, FM frequency and depth
values (such as `modDepth = 2`) are not rejected before synthesis but are
synthesized like any others — range enforcement lives in the UI widgets
outside the engine — and a duration that truncates to zero samples is coerced
to `N = 1` rather than being an error. For every `sampleRate ≥ 1` (below
which the `wave` module's `setframerate` raises during container emission,
the one failure the entry point can hit, and a container-encoder error rather
than a parameter check before synthesis) the call returns a complete
container: a 44-byte header plus `4·N` payload bytes, `N ≥ 1`. -/
theorem generate_fm_tone_no_validation (S C : ℚ → ℚ) (sr : ℕ) (freq : ℚ)
    (dur_ms : ℕ) (fm_hz depth : ℚ) (with_fm : Bool) (ear : String)
    (hsr : 1 ≤ sr) :
    44 ≤ (generate_fm_tone S C sr freq dur_ms fm_hz depth with_fm ear).length ∧
      1 ≤ nSamples sr dur_ms := by
  rw [generate_fm_tone_length]
  exact ⟨Nat.le_add_right 44 _, one_le_nSamples sr dur_ms⟩

theorem generate_fm_tone_no_validation_witness :
    1 ≤ 44100 ∧
      (44 ≤ (generate_fm_tone (fun _ => 0) (fun _ => 0) 44100 500 1000 2 2 true
          "両耳").length ∧
        1 ≤ nSamples 44100 1000) :=
  ⟨by decide,
    generate_fm_tone_no_validation (fun _ => 0) (fun _ => 0) 44100 500 1000 2 2 true
      "両耳" (by decide)⟩

theorem maxAbs_cons (a : ℚ) (l : List ℚ) : maxAbs (a :: l) = max |a| (maxAbs l) := rfl

theorem maxAbs_nonneg (xs : List ℚ) : 0 ≤ maxAbs xs := by
  induction xs with
  | nil => exact le_refl 0
  | cons a l ih => exact ih.trans ((le_max_right _ _).trans (maxAbs_cons a l).ge)

theorem le_maxAbs_of_mem {x : ℚ} {xs : List ℚ} (h : x ∈ xs) : |x| ≤ maxAbs xs := by
  induction xs with
  | nil => cases h
  | cons a l ih =>
    rw [maxAbs_cons]
    rcases List.mem_cons.mp h with h | h
    · rw [h]; exact le_max_left _ _
    · exact (ih h).trans (le_max_right _ _)

theorem maxAbs_attained {xs : List ℚ} (h : xs ≠ []) :
    ∃ x ∈ xs, |x| = maxAbs xs := by
  induction xs with
  | nil => exact absurd rfl h
  | cons a l ih =>
    cases l with
    | nil =>
      refine ⟨a, List.mem_cons_self a [], ?_⟩
      rw [maxAbs_cons, show maxAbs ([] : List ℚ) = 0 from rfl,
        max_eq_left (abs_nonneg a)]
    | cons b m =>
      rcases max_cases |a| (maxAbs (b :: m)) with ⟨heq, _⟩ | ⟨heq, _⟩
      · exact ⟨a, List.mem_cons_self a _, by rw [maxAbs_cons, heq]⟩
      · obtain ⟨x, hx, hxe⟩ := ih (by simp)
        exact ⟨x, List.mem_cons_of_mem a hx, by rw [maxAbs_cons, heq, hxe]⟩

theorem maxAbs_map_div (xs : List ℚ) (m : ℚ) (hm : 0 < m) :
    maxAbs (xs.map fun x => x / m) = maxAbs xs / m := by
  induction xs with
  | nil => simp [maxAbs]
  | cons a l ih =>
    simp only [List.map_cons, maxAbs_cons, ih]
    rw [abs_div, abs_of_pos hm, max_div_div_right hm.le]

theorem normalizePeak_of_ge (xs : List ℚ) (h : 1/1000000000 ≤ maxAbs xs) :
    normalizePeak xs = xs.map fun x => x / maxAbs xs := by
  simp only [normalizePeak]
  rw [if_neg (not_lt.mpr h)]

theorem maxAbsZ_cons (z : ℤ) (l : List ℤ) :
    maxAbsZ (z :: l) = max |z| (maxAbsZ l) := rfl

theorem maxAbsZ_le {zs : List ℤ} {B : ℤ} (hB : 0 ≤ B)
    (h : ∀ z ∈ zs, |z| ≤ B) : maxAbsZ zs ≤ B := by
  induction zs with
  | nil => exact hB
  | cons z l ih =>
    rw [maxAbsZ_cons]
    exact max_le (h z (List.mem_cons_self z l))
      (ih fun w hw => h w (List.mem_cons_of_mem z hw))

theorem le_maxAbsZ_of_mem {z : ℤ} {zs : List ℤ} (h : z ∈ zs) : |z| ≤ maxAbsZ zs := by
  induction zs with
  | nil => cases h
  | cons a l ih =>
    rw [maxAbsZ_cons]
    rcases List.mem_cons.mp h with h | h
    · rw [h]; exact le_max_left _ _
    · exact (ih h).trans (le_max_right _ _)

theorem abs_truncQ_le {q : ℚ} {B : ℤ} (h : |q| ≤ (B : ℚ)) : |truncQ q| ≤ B := by
  rw [abs_le] at h ⊢
  unfold truncQ
  constructor
  · split
    · exact Int.le_floor.mpr (by push_cast; exact h.1)
    · have hq : ((-B : ℤ) : ℚ) ≤ q := by push_cast; exact h.1
      exact_mod_cast hq.trans (Int.le_ceil q)
  · split
    · exact_mod_cast le_trans (Int.floor_le q) h.2
    · exact Int.ceil_le.mpr h.2

theorem toInt16_eq_self {z : ℤ} (hlo : -32768 ≤ z) (hhi : z ≤ 32767) :
    toInt16 z = z := by
  unfold toInt16
  rw [Int.emod_eq_of_lt (by omega) (by omega)]
  omega

theorem quantizeSample_of_abs_le {s : ℚ} (h : |s| ≤ 1) :
    quantizeSample s = truncQ (s * 32767) ∧ |quantizeSample s| ≤ 32767 := by
  have habs : |s * 32767| ≤ ((32767 : ℤ) : ℚ) := by
    rw [abs_mul, show |(32767 : ℚ)| = 32767 from by norm_num]
    push_cast
    nlinarith [abs_nonneg s]
  have hb := abs_truncQ_le habs
  have heq : quantizeSample s = truncQ (s * 32767) := by
    unfold quantizeSample
    rw [abs_le] at hb
    exact toInt16_eq_self (by omega) hb.2
  exact ⟨heq, heq ▸ hb⟩

theorem truncQ_one_mul : truncQ ((1 : ℚ) * 32767) = 32767 := by
  unfold truncQ
  rw [if_pos (by norm_num), show (1 : ℚ) * 32767 = 32767 from by norm_num,
    Int.floor_eq_iff]
  norm_num

theorem truncQ_neg_one_mul : truncQ ((-1 : ℚ) * 32767) = -32767 := by
  unfold truncQ
  rw [if_neg (by norm_num), show (-1 : ℚ) * 32767 = -32767 from by norm_num,
    Int.ceil_eq_iff]
  norm_num

theorem quantizeSample_abs_one {s : ℚ} (h : |s| = 1) :
    |quantizeSample s| = 32767 := by
  rcases (abs_eq (by norm_num : (0:ℚ) ≤ 1)).mp h with rfl | rfl
  · unfold quantizeSample
    rw [truncQ_one_mul, toInt16_eq_self (by omega) (by omega)]
    decide
  · unfold quantizeSample
    rw [truncQ_neg_one_mul, toInt16_eq_self (by omega) (by omega)]
    decide

/-- C4 counterexample: the buffer `[1e-10]` is not all-zero, but its peak
`1e-10` is below the `1e-9` epsilon floor, so the normalizer divides by 1 and
the normalized peak stays `1e-10`, not `1.0`. -/
theorem normalize_tiny_nonzero_cex :
    ¬((1 : ℚ)/10000000000 = 0) ∧
      maxAbs (normalizePeak [(1 : ℚ)/10000000000]) ≠ 1 := by
  have hmax : maxAbs [(1 : ℚ)/10000000000] = 1/10000000000 := by
    rw [maxAbs_cons, abs_of_pos (by norm_num), show maxAbs ([] : List ℚ) = 0 from rfl,
      max_eq_left (by norm_num)]
  refine ⟨by norm_num, ?_⟩
  have hid : normalizePeak [(1 : ℚ)/10000000000] = [(1 : ℚ)/10000000000] := by
    simp only [normalizePeak]
    rw [hmax, if_pos (by norm_num)]
    simp
  rw [hid, hmax]
  norm_num

/-- C4 (amended): whenever the raw (post-window) buffer's peak absolute value
is at least the `1e-9` epsilon floor (rather than merely non-zero), the
normalized buffer's peak absolute value is exactly 1 and the peak magnitude
of the quantized 16-bit samples is exactly 32767, never exceeding the signed
16-bit range. -/
theorem normalized_peak_exactly_one (xs : List ℚ)
    (h : 1/1000000000 ≤ maxAbs xs) :
    maxAbs (normalizePeak xs) = 1 ∧
      maxAbsZ ((normalizePeak xs).map quantizeSample) = 32767 := by
  have hm : 0 < maxAbs xs := lt_of_lt_of_le (by norm_num) h
  have hxs : xs ≠ [] := by
    intro he
    rw [he] at hm
    exact absurd hm (by norm_num [maxAbs])
  have h1 : maxAbs (normalizePeak xs) = 1 := by
    rw [normalizePeak_of_ge xs h, maxAbs_map_div xs _ hm, div_self hm.ne']
  refine ⟨h1, ?_⟩
  have hne : normalizePeak xs ≠ [] := by
    intro he
    have := normalizePeak_length xs
    rw [he] at this
    exact hxs (List.eq_nil_of_length_eq_zero this.symm)
  have hbound : ∀ z ∈ (normalizePeak xs).map quantizeSample, |z| ≤ (32767 : ℤ) := by
    intro z hz
    obtain ⟨y, hy, rfl⟩ := List.mem_map.mp hz
    have hy1 : |y| ≤ 1 := h1 ▸ le_maxAbs_of_mem hy
    exact (quantizeSample_of_abs_le hy1).2
  obtain ⟨y, hy, hye⟩ := maxAbs_attained hne
  rw [h1] at hye
  refine le_antisymm (maxAbsZ_le (by norm_num) hbound) ?_
  calc (32767 : ℤ) = |quantizeSample y| := (quantizeSample_abs_one hye).symm
    _ ≤ maxAbsZ ((normalizePeak xs).map quantizeSample) :=
        le_maxAbsZ_of_mem (List.mem_map_of_mem quantizeSample hy)

theorem normalized_peak_exactly_one_witness :
    (1 : ℚ)/1000000000 ≤ maxAbs [(1 : ℚ)/2] ∧
      (maxAbs (normalizePeak [(1 : ℚ)/2]) = 1 ∧
        maxAbsZ ((normalizePeak [(1 : ℚ)/2]).map quantizeSample) = 32767) := by
  have h : (1 : ℚ)/1000000000 ≤ maxAbs [(1 : ℚ)/2] := by
    rw [maxAbs_cons, abs_of_pos (by norm_num), show maxAbs ([] : List ℚ) = 0 from rfl,
      max_eq_left (by norm_num)]
    norm_num
  exact ⟨h, normalized_peak_exactly_one [(1 : ℚ)/2] h⟩

/-- C5 counterexample: the normalized sample `1/2` is quantized by the code to
`trunc(16383.5) = 16383`, while the claimed `round(s * 32767)` gives `16384`. -/
theorem quantize_round_cex :
    quantizeSample (1/2) = 16383 ∧ round ((1/2 : ℚ) * 32767) = 16384 ∧
      quantizeSample (1/2) ≠ round ((1/2 : ℚ) * 32767) := by
  have hf : truncQ ((1/2 : ℚ) * 32767) = 16383 := by
    unfold truncQ
    rw [if_pos (by norm_num), show (1/2 : ℚ) * 32767 = 32767/2 from by norm_num,
      Int.floor_eq_iff]
    norm_num
  have h1 : quantizeSample (1/2) = 16383 := by
    unfold quantizeSample
    rw [hf, toInt16_eq_self (by omega) (by omega)]
  have h2 : round ((1/2 : ℚ) * 32767) = 16384 := by
    rw [round_eq, show (1/2 : ℚ) * 32767 + 1/2 = 16384 from by norm_num,
      Int.floor_eq_iff]
    norm_num
  exact ⟨h1, h2, by rw [h1, h2]; decide⟩

/-- C5 (amended): the quantizer maps each normalized sample `s ∈ [-1,1]` to
the 16-bit integer `trunc(s * 32767)` (truncation toward zero, the C
conversion semantics of `astype(np.int16)`), and on this input range the
result always lies within `[-32767, 32767]`, so the int16 wraparound in the
conversion never engages (no saturation is needed). -/
theorem quantizeSample_is_trunc (s : ℚ) (h1 : -1 ≤ s) (h2 : s ≤ 1) :
    quantizeSample s = truncQ (s * 32767) ∧
      -32767 ≤ quantizeSample s ∧ quantizeSample s ≤ 32767 := by
  have h := quantizeSample_of_abs_le (abs_le.mpr ⟨h1, h2⟩)
  rw [abs_le] at h
  exact ⟨h.1, h.2⟩

theorem quantizeSample_is_trunc_witness :
    (-1 ≤ (-7/10 : ℚ)) ∧ ((-7/10 : ℚ) ≤ 1) ∧
      (quantizeSample (-7/10) = truncQ ((-7/10) * 32767) ∧
        -32767 ≤ quantizeSample (-7/10) ∧ quantizeSample (-7/10) ≤ 32767) :=
  ⟨by norm_num, by norm_num,
    quantizeSample_is_trunc (-7/10) (by norm_num) (by norm_num)⟩

